import Mathlib

/-!
Verification development for the KFT order generator
(src/order_generator.py).

The Python program is shallowly embedded: float arithmetic is modelled
over ℝ, Python integers over ℤ/ℕ, fallible list indexing over Option,
and every random draw of the standard library is replaced by an explicit
uniform oracle `u ∈ [0,1)` together with the arithmetic the CPython
`random` module performs on that draw:
  - `random.random()`            ↦ `u`
  - `random.choice(range(a,b))`  ↦ `a + ⌊u * (b - a)⌋`
  - `random.choices(pop, k)` without weights ↦ each draw `pop[⌊u*n⌋]`
  - `random.choices(pop, weights, k)` ↦ each draw via the cumulative
    weight list and `bisect_right` on `u * total`; on a sorted cumulative
    list (weights are non-negative here) `bisect_right cum x` is the
    number of entries of `cum[0 : n-1]` that are `≤ x`.
-/

set_option maxHeartbeats 1000000

namespace KFT

/-- Embeds `novelty_reset = 5` (src/order_generator.py line 23). -/
def novelty_reset : ℝ := 5

/-- Embeds `novelty_penalty(days)` (lines 84–90):
`max(1 - ((novelty_reset * days)**0.5)/novelty_reset, 0)`. -/
noncomputable def novelty_penalty (days : ℝ) : ℝ :=
  max (1 - Real.sqrt (novelty_reset * days) / novelty_reset) 0

/-- One generated order: the chosen values, as in the Python `Order`
instance attributes set by `__init__`. -/
structure Order where
  toppings : List String
  tea_type : String
  sugar_percentage : ℤ
  ice_category : String
deriving DecidableEq

/-- Embeds `Order.tea_types` (line 29). -/
def Order.tea_types : List String :=
  ["classic", "milk tea", "punch", "milk cap", "yogurt", "slush", "milk strike", "espresso"]

/-- Embeds `Order.ice_categories` (line 32). -/
def Order.ice_categories : List String :=
  ["no", "less", "regular", "more"]

/-- Embeds `Order.topping_list` (line 35). -/
def Order.topping_list : List String :=
  ["tapioca", "pudding", "nata jelly", "red bean", "coffee popping bubbles", "herbal jelly",
   "grape popping bubbles", "aloe jelly", "mango popping bubbles", "lychee crystal bubbles"]

/-- Embeds `Order.__init__` with `from_uniform=False` (lines 39–43):
every index is reduced modulo the domain size before the list access.
List accesses are modelled by `Option`; this branch never returns `none`
(the moduli keep all indices in range), which is proved below. -/
def Order.init (toppings : List ℤ) (tea_type : ℤ) (sugar_percentage : ℤ)
    (ice_category : ℤ) : Option Order := do
  let ts ← toppings.mapM fun t => Order.topping_list[(t % (Order.topping_list.length : ℤ)).toNat]?
  let tt ← Order.tea_types[(tea_type % (Order.tea_types.length : ℤ)).toNat]?
  let ic ← Order.ice_categories[(ice_category % (Order.ice_categories.length : ℤ)).toNat]?
  pure { toppings := ts, tea_type := tt,
         sugar_percentage := sugar_percentage % 100, ice_category := ic }

/-- Embeds `Order.__init__` with `from_uniform=True` (lines 44–48):
each fractional input `x` is mapped to index `int(x * len(domain))` with
NO modulo, so the access can fall out of range; `Option` models the
possible `IndexError`.  Python `int` truncates toward zero; on the
documented inputs (`0.0 <= x <= 1.0`) this is the floor, embedded as
`Nat.floor` for the indices and `Int.floor` for the sugar percentage. -/
noncomputable def Order.initUniform (toppings : List ℝ) (tea_type : ℝ)
    (sugar_percentage : ℝ) (ice_category : ℝ) : Option Order := do
  let ts ← toppings.mapM fun t => Order.topping_list[⌊t * (Order.topping_list.length : ℝ)⌋₊]?
  let tt ← Order.tea_types[⌊tea_type * (Order.tea_types.length : ℝ)⌋₊]?
  let ic ← Order.ice_categories[⌊ice_category * (Order.ice_categories.length : ℝ)⌋₊]?
  pure { toppings := ts, tea_type := tt,
         sugar_percentage := ⌊sugar_percentage * 100⌋, ice_category := ic }

/-- The dictionary produced by `Order.to_dict` (lines 60–66): each chosen
value replaced by its index in its domain list. -/
structure OrderDict where
  toppings : List ℕ
  tea_type : ℕ
  sugar_percentage : ℤ
  ice_category : ℕ
deriving DecidableEq

/-- Embeds `Order.to_dict` (lines 60–66); `list.index` is `List.indexOf`. -/
def Order.to_dict (o : Order) : OrderDict :=
  { toppings := o.toppings.map fun t => Order.topping_list.indexOf t,
    tea_type := Order.tea_types.indexOf o.tea_type,
    sugar_percentage := o.sugar_percentage,
    ice_category := Order.ice_categories.indexOf o.ice_category }

/-- Embeds `random.choice(range(1,4))`: a uniform draw `u ∈ [0,1)` mapped
to `1 + ⌊u * 3⌋`, i.e. a uniform element of {1, 2, 3}. -/
noncomputable def choiceRange13 (u : ℝ) : ℕ := 1 + ⌊u * 3⌋₊

/-- Embeds `Order.generate_first` (lines 68–81): the `__init__` keyword
arguments for the bootstrap order, as a tuple
(toppings fractions, tea_type, sugar_percentage, ice_category), all for
`from_uniform=True`.  `uk` is the draw for `random.choice(range(1,4))`,
`uts i` the draw for the `i`-th unweighted `random.choices` pick, and
the remaining arguments the three bare `random.random()` draws. -/
noncomputable def Order.generate_first (uk : ℝ) (uts : ℕ → ℝ)
    (utea usugar uice : ℝ) : List ℝ × ℝ × ℝ × ℝ :=
  (((List.range (choiceRange13 uk)).map fun i =>
      (⌊uts i * (Order.topping_list.length : ℝ)⌋₊ : ℝ) / (Order.topping_list.length : ℝ)),
   utea, usugar, uice)

/-- One stored history record: the `to_dict` encoding of a past order
plus its date.  Dates are embedded as integers (days); the program's
`(today - date).days` is `today - r.date` here. -/
structure HistoryRecord where
  toppings : List ℕ
  tea_type : ℕ
  sugar_percentage : ℤ
  ice_category : ℕ
  date : ℤ
deriving DecidableEq

/-- The `novelty_factors` dictionary (lines 107–111): one weight list per
categorical domain. -/
structure NoveltyFactors where
  toppings : List ℝ
  tea_type : List ℝ
  ice_category : List ℝ

/-- One clamped in-place penalty update
`w[i] = max(w[i] - p, 0)` (lines 117–119). -/
noncomputable def applyPenalty (w : List ℝ) (i : ℕ) (p : ℝ) : List ℝ :=
  w.set i (max (w.getD i 0 - p) 0)

/-- Processing one history record in the loop of lines 113–119: the
record's penalty is subtracted (clamped at 0) from every topping it
references and from its tea type and ice category. -/
noncomputable def applyRecord (today : ℤ) (nf : NoveltyFactors) (r : HistoryRecord) :
    NoveltyFactors :=
  let p := novelty_penalty ((today - r.date : ℤ) : ℝ)
  { toppings := r.toppings.foldl (fun acc t => applyPenalty acc t p) nf.toppings,
    tea_type := applyPenalty nf.tea_type r.tea_type p,
    ice_category := applyPenalty nf.ice_category r.ice_category p }

/-- The initial weights of lines 107–111: `[1 for _ in domain]` for each
of the three categorical domains. -/
def initialFactors : NoveltyFactors :=
  { toppings := List.replicate Order.topping_list.length 1,
    tea_type := List.replicate Order.tea_types.length 1,
    ice_category := List.replicate Order.ice_categories.length 1 }

/-- The full novelty-scorer pass of lines 107–119: weights start at 1 for
every value of every domain and each record is folded in. -/
noncomputable def noveltyFactors (h : List HistoryRecord) (today : ℤ) : NoveltyFactors :=
  h.foldl (applyRecord today) initialFactors

/-- Running sum of the first `i` weights; `sumTo w w.length = w.sum`. -/
noncomputable def sumTo (w : List ℝ) (i : ℕ) : ℝ := (w.take i).sum

/-- Embeds `itertools.accumulate(weights)` inside `random.choices`:
entry `i` is the sum of the first `i+1` weights. -/
noncomputable def cumulative (w : List ℝ) : List ℝ :=
  (List.range w.length).map fun i => sumTo w (i + 1)

/-- Embeds one weighted draw of `random.choices(range(n), weights=w)`:
`bisect_right(cum_weights, u * total, 0, n - 1)`; on the sorted
cumulative list this is the number of entries of the first `n - 1`
cumulative sums that are `≤ u * total`. -/
noncomputable def choicesWeighted (w : List ℝ) (u : ℝ) : ℕ :=
  ((cumulative w).take (w.length - 1)).countP fun c => decide (c ≤ u * w.sum)

/-- Embeds one unweighted draw of `random.choices(range(n))`
(`weights=None`): `⌊u * n⌋`. -/
noncomputable def choicesUniform (n : ℕ) (u : ℝ) : ℕ := ⌊u * (n : ℝ)⌋₊

/-- Embeds lines 128–133's per-domain draw: `v_or_none` is `None` when
the weights sum to 0 (uniform draw), else the weight list itself
(weighted draw). -/
noncomputable def selectIdx (w : List ℝ) (u : ℝ) : ℕ :=
  if w.sum = 0 then choicesUniform w.length u else choicesWeighted w u

/-- The uniform oracle draws consumed by one run of `new_order`'s
weighted branch: `usugar` for line 124, `uk` for the topping-count
choice, `uts` for the topping draws, `utea` and `uice` for the two
single-valued domains. -/
structure Draws where
  usugar : ℝ
  uk : ℝ
  uts : ℕ → ℝ
  utea : ℝ
  uice : ℝ

/-- The `args` dictionary built by lines 121–133 (weighted branch):
toppings are `list(set(...))` of 1–3 weighted draws — embedded with
`List.dedup` — and each single-valued domain gets one weighted draw. -/
noncomputable def newOrderArgs (nf : NoveltyFactors) (d : Draws) :
    List ℤ × ℤ × ℤ × ℤ :=
  (((List.range (choiceRange13 d.uk)).map fun i =>
      (selectIdx nf.toppings (d.uts i) : ℤ)).dedup,
   (selectIdx nf.tea_type d.utea : ℤ),
   ⌊d.usugar * 100⌋,
   (selectIdx nf.ice_category d.uice : ℤ))

/-- The history record appended for a freshly generated order:
`this_order_dict = this_order.to_dict(); this_order_dict['date'] = str(today)`
(lines 101–102 and 136–137). -/
def recordOf (o : Order) (today : ℤ) : HistoryRecord :=
  { toppings := o.to_dict.toppings, tea_type := o.to_dict.tea_type,
    sugar_percentage := o.to_dict.sugar_percentage,
    ice_category := o.to_dict.ice_category, date := today }

/-- The weighted branch of `new_order` (lines 104–139): compute the
novelty factors from the stored history and build the order. -/
noncomputable def newOrderWeighted (prev : List HistoryRecord) (today : ℤ)
    (d : Draws) : Option Order :=
  let nf := noveltyFactors prev today
  let a := newOrderArgs nf d
  Order.init a.1 a.2.1 a.2.2.1 a.2.2.2

/-- The bootstrap branch of `new_order` (lines 99–103):
`Order(**Order.generate_first())`. -/
noncomputable def newOrderFirst (d : Draws) : Option Order :=
  let a := Order.generate_first d.uk d.uts d.utea d.usugar d.uice
  Order.initUniform a.1 a.2.1 a.2.2.1 a.2.2.2

/-- Embeds `new_order` (lines 92–144) as a state transition on the
stored order list: the generated order together with the updated list
written back to storage.  `none` models a Python exception. -/
noncomputable def new_order (prev : List HistoryRecord) (today : ℤ) (d : Draws) :
    Option (Order × List HistoryRecord) :=
  if prev = [] then
    (newOrderFirst d).map fun o => (o, [recordOf o today])
  else
    (newOrderWeighted prev today d).map fun o => (o, prev ++ [recordOf o today])

/-- The penalty a record dated `r.date` contributes when generating on
day `today` (line 114–115). -/
noncomputable def penaltyOf (today : ℤ) (r : HistoryRecord) : ℝ :=
  novelty_penalty ((today - r.date : ℤ) : ℝ)

section PenaltyLemmas

lemma sqrt_25 : Real.sqrt 25 = 5 := by
  rw [show (25 : ℝ) = 5 ^ 2 by norm_num, Real.sqrt_sq (by norm_num : (0:ℝ) ≤ 5)]

lemma novelty_penalty_nonneg (d : ℝ) : 0 ≤ novelty_penalty d := le_max_right _ _

lemma penaltyOf_nonneg (today : ℤ) (r : HistoryRecord) : 0 ≤ penaltyOf today r :=
  novelty_penalty_nonneg _

lemma novelty_penalty_le_one (d : ℝ) : novelty_penalty d ≤ 1 := by
  have hs : 0 ≤ Real.sqrt (novelty_reset * d) := Real.sqrt_nonneg _
  have : (1 : ℝ) - Real.sqrt (novelty_reset * d) / novelty_reset ≤ 1 := by
    have : 0 ≤ Real.sqrt (novelty_reset * d) / novelty_reset := by
      apply div_nonneg hs; norm_num [novelty_reset]
    linarith
  exact max_le this (by norm_num)

end PenaltyLemmas

/-- C2: `novelty_penalty(d) = max(1 - sqrt(N*d)/N, 0)` with `N = 5`, and
on `d ≥ 0` it is 1 at 0, vanishes for `d ≥ 5`, is monotonically
non-increasing, and is never negative. -/
theorem C2_novelty_penalty_properties :
    (novelty_reset = 5 ∧ ∀ d : ℝ, novelty_penalty d = max (1 - Real.sqrt (5 * d) / 5) 0)
    ∧ novelty_penalty 0 = 1
    ∧ (∀ d : ℝ, 5 ≤ d → novelty_penalty d = 0)
    ∧ (∀ d e : ℝ, 0 ≤ d → d ≤ e → novelty_penalty e ≤ novelty_penalty d)
    ∧ (∀ d : ℝ, 0 ≤ novelty_penalty d) := by
  refine ⟨⟨rfl, fun d => rfl⟩, ?_, ?_, ?_, fun d => le_max_right _ _⟩
  · unfold novelty_penalty novelty_reset
    rw [mul_zero, Real.sqrt_zero]
    norm_num
  · intro d hd
    unfold novelty_penalty novelty_reset
    have h25 : (25 : ℝ) ≤ 5 * d := by linarith
    have h5 : (5 : ℝ) ≤ Real.sqrt (5 * d) := by
      have := Real.sqrt_le_sqrt h25
      rwa [sqrt_25] at this
    have : (1 : ℝ) - Real.sqrt (5 * d) / 5 ≤ 0 := by linarith
    exact max_eq_right this
  · intro d e _ hde
    unfold novelty_penalty novelty_reset
    have hs : Real.sqrt (5 * d) ≤ Real.sqrt (5 * e) := Real.sqrt_le_sqrt (by linarith)
    have : (1 : ℝ) - Real.sqrt (5 * e) / 5 ≤ 1 - Real.sqrt (5 * d) / 5 := by linarith
    exact max_le_max this le_rfl

/-- Witness for C2 at concrete inputs. -/
theorem C2_witness :
    novelty_penalty 3 = max (1 - Real.sqrt (5 * 3) / 5) 0
    ∧ novelty_penalty 0 = 1
    ∧ novelty_penalty 7 = 0
    ∧ novelty_penalty 1 ≤ novelty_penalty 0
    ∧ 0 ≤ novelty_penalty 2 :=
  ⟨C2_novelty_penalty_properties.1.2 3,
   C2_novelty_penalty_properties.2.1,
   C2_novelty_penalty_properties.2.2.1 7 (by norm_num),
   C2_novelty_penalty_properties.2.2.2.1 0 1 le_rfl (by norm_num),
   C2_novelty_penalty_properties.2.2.2.2 2⟩

section WeightRange

/-- All entries of a weight list lie in `[0, 1]`. -/
def InUnit (w : List ℝ) : Prop := ∀ y ∈ w, 0 ≤ y ∧ y ≤ 1

lemma getD_le_one {w : List ℝ} (hw : InUnit w) (i : ℕ) : w.getD i 0 ≤ 1 := by
  rcases lt_or_le i w.length with h | h
  · rw [List.getD_eq_getElem?_getD, List.getElem?_eq_getElem h]
    exact (hw _ (List.getElem_mem h)).2
  · rw [List.getD_eq_default _ _ h]; norm_num

lemma inUnit_applyPenalty {w : List ℝ} (hw : InUnit w) {p : ℝ} (hp : 0 ≤ p) (i : ℕ) :
    InUnit (applyPenalty w i p) := by
  intro y hy
  rcases List.mem_or_eq_of_mem_set hy with h | h
  · exact hw y h
  · subst h
    refine ⟨le_max_right _ _, max_le ?_ (by norm_num)⟩
    have := getD_le_one hw i
    linarith

lemma inUnit_foldl_applyPenalty {p : ℝ} (hp : 0 ≤ p) (ts : List ℕ) {w : List ℝ}
    (hw : InUnit w) : InUnit (ts.foldl (fun a t => applyPenalty a t p) w) := by
  induction ts generalizing w with
  | nil => exact hw
  | cons t ts ih => exact ih (inUnit_applyPenalty hw hp t)

lemma inUnit_applyRecord (today : ℤ) {nf : NoveltyFactors} (r : HistoryRecord)
    (h1 : InUnit nf.toppings) (h2 : InUnit nf.tea_type) (h3 : InUnit nf.ice_category) :
    InUnit (applyRecord today nf r).toppings ∧ InUnit (applyRecord today nf r).tea_type
      ∧ InUnit (applyRecord today nf r).ice_category := by
  have hp := penaltyOf_nonneg today r
  exact ⟨inUnit_foldl_applyPenalty hp r.toppings h1,
    inUnit_applyPenalty h2 hp r.tea_type, inUnit_applyPenalty h3 hp r.ice_category⟩

lemma inUnit_replicate (n : ℕ) : InUnit (List.replicate n 1) := by
  intro y hy
  rw [(List.mem_replicate.mp hy).2]
  norm_num

lemma inUnit_foldl_records (today : ℤ) (h : List HistoryRecord) (nf : NoveltyFactors)
    (hstart : InUnit nf.toppings ∧ InUnit nf.tea_type ∧ InUnit nf.ice_category) :
    InUnit (h.foldl (applyRecord today) nf).toppings
      ∧ InUnit (h.foldl (applyRecord today) nf).tea_type
      ∧ InUnit (h.foldl (applyRecord today) nf).ice_category := by
  induction h generalizing nf with
  | nil => exact hstart
  | cons r h ih =>
      exact ih _ (inUnit_applyRecord today r hstart.1 hstart.2.1 hstart.2.2)

lemma inUnit_noveltyFactors (h : List HistoryRecord) (today : ℤ) :
    InUnit (noveltyFactors h today).toppings ∧ InUnit (noveltyFactors h today).tea_type
      ∧ InUnit (noveltyFactors h today).ice_category :=
  inUnit_foldl_records today h initialFactors
    ⟨inUnit_replicate _, inUnit_replicate _, inUnit_replicate _⟩

end WeightRange

/-- C3: for every history whose records are not dated in the future,
every entry of every weight vector the novelty scorer computes lies in
`[0, 1]`, for toppings, tea type and ice category alike. -/
theorem C3_weights_in_unit_interval (h : List HistoryRecord) (today : ℤ)
    (hdays : ∀ r ∈ h, r.date ≤ today) :
    (∀ x ∈ (noveltyFactors h today).toppings, 0 ≤ x ∧ x ≤ 1)
    ∧ (∀ x ∈ (noveltyFactors h today).tea_type, 0 ≤ x ∧ x ≤ 1)
    ∧ (∀ x ∈ (noveltyFactors h today).ice_category, 0 ≤ x ∧ x ≤ 1) :=
  inUnit_noveltyFactors h today

/-- Witness for C3: a concrete one-record history, today 3 days later. -/
theorem C3_witness :
    (∀ x ∈ (noveltyFactors [⟨[0], 1, 50, 0, 0⟩] 3).toppings, 0 ≤ x ∧ x ≤ 1)
    ∧ (∀ x ∈ (noveltyFactors [⟨[0], 1, 50, 0, 0⟩] 3).tea_type, 0 ≤ x ∧ x ≤ 1)
    ∧ (∀ x ∈ (noveltyFactors [⟨[0], 1, 50, 0, 0⟩] 3).ice_category, 0 ≤ x ∧ x ≤ 1) :=
  C3_weights_in_unit_interval [⟨[0], 1, 50, 0, 0⟩] 3
    (by intro r hr; rw [List.mem_singleton.mp hr]; norm_num)

section ClosedForm

lemma length_applyPenalty (w : List ℝ) (i : ℕ) (p : ℝ) :
    (applyPenalty w i p).length = w.length := List.length_set w i _

lemma length_foldl_applyPenalty (p : ℝ) (ts : List ℕ) (w : List ℝ) :
    (ts.foldl (fun a t => applyPenalty a t p) w).length = w.length := by
  induction ts generalizing w with
  | nil => rfl
  | cons t ts ih => rw [List.foldl_cons, ih, length_applyPenalty]

lemma getD_applyPenalty (w : List ℝ) (i j : ℕ) (p : ℝ) (hj : j < w.length) :
    (applyPenalty w i p).getD j 0
      = if i = j then max (w.getD j 0 - p) 0 else w.getD j 0 := by
  unfold applyPenalty
  rw [List.getD_eq_getElem?_getD, List.getElem?_set]
  by_cases hij : i = j
  · subst hij
    rw [if_pos rfl, if_pos rfl, if_pos hj]
    rfl
  · rw [if_neg hij, if_neg hij, List.getD_eq_getElem?_getD]

lemma max_sub_clamp (a b : ℝ) (hb : 0 ≤ b) : max (max a 0 - b) 0 = max (a - b) 0 := by
  rcases le_or_lt a 0 with h | h
  · rw [max_eq_right h, max_eq_right (by linarith : a - b ≤ (0:ℝ)),
      max_eq_right (by linarith : (0:ℝ) - b ≤ 0)]
  · rw [max_eq_left h.le]

lemma getD_foldl_toppings {p : ℝ} (hp : 0 ≤ p) (ts : List ℕ) (w : List ℝ) (j : ℕ)
    (hj : j < w.length) (hg : 0 ≤ w.getD j 0) :
    (ts.foldl (fun a t => applyPenalty a t p) w).getD j 0
      = max (w.getD j 0 - (ts.count j : ℝ) * p) 0 := by
  induction ts generalizing w with
  | nil =>
      rw [List.foldl_nil, List.count_nil]
      push_cast
      rw [zero_mul, sub_zero, max_eq_left hg]
  | cons t ts ih =>
      rw [List.foldl_cons]
      have hj' : j < (applyPenalty w t p).length := by rwa [length_applyPenalty]
      have hval := getD_applyPenalty w t j p hj
      by_cases ht : t = j
      · have hg' : 0 ≤ (applyPenalty w t p).getD j 0 := by
          rw [hval, if_pos ht]; exact le_max_right _ _
        rw [ih _ hj' hg', hval, if_pos ht,
          max_sub_clamp _ _ (mul_nonneg (by positivity) hp), List.count_cons]
        subst ht
        simp only [beq_self_eq_true, if_true]
        push_cast
        ring_nf
      · have hg' : 0 ≤ (applyPenalty w t p).getD j 0 := by rw [hval, if_neg ht]; exact hg
        rw [ih _ hj' hg', hval, if_neg ht, List.count_cons]
        simp only [beq_iff_eq, if_neg ht, Nat.add_zero]

lemma contribution_sum_nonneg (today : ℤ) (f : HistoryRecord → List ℕ)
    (h : List HistoryRecord) (j : ℕ) :
    0 ≤ (h.map fun r => ((f r).count j : ℝ) * penaltyOf today r).sum := by
  apply List.sum_nonneg
  intro x hx
  obtain ⟨r, _, rfl⟩ := List.mem_map.mp hx
  exact mul_nonneg (by positivity) (penaltyOf_nonneg today r)

lemma getD_foldl_records (today : ℤ) (g : NoveltyFactors → List ℝ)
    (f : HistoryRecord → List ℕ)
    (hcompat : ∀ nf r, g (applyRecord today nf r)
      = (f r).foldl (fun a t => applyPenalty a t (penaltyOf today r)) (g nf))
    (h : List HistoryRecord) (nf : NoveltyFactors) (j : ℕ)
    (hj : j < (g nf).length) (hg : 0 ≤ (g nf).getD j 0) :
    (g (h.foldl (applyRecord today) nf)).getD j 0
      = max ((g nf).getD j 0
          - (h.map fun r => ((f r).count j : ℝ) * penaltyOf today r).sum) 0 := by
  induction h generalizing nf with
  | nil =>
      rw [List.foldl_nil, List.map_nil, List.sum_nil, sub_zero, max_eq_left hg]
  | cons r h ih =>
      rw [List.foldl_cons]
      have hlen' : (g (applyRecord today nf r)).length = (g nf).length := by
        rw [hcompat, length_foldl_applyPenalty]
      have hval' : (g (applyRecord today nf r)).getD j 0
          = max ((g nf).getD j 0 - ((f r).count j : ℝ) * penaltyOf today r) 0 := by
        rw [hcompat]
        exact getD_foldl_toppings (penaltyOf_nonneg today r) (f r) (g nf) j hj hg
      have hg' : 0 ≤ (g (applyRecord today nf r)).getD j 0 := by
        rw [hval']; exact le_max_right _ _
      rw [ih _ (by rwa [hlen']) hg', hval',
        max_sub_clamp _ _ (contribution_sum_nonneg today f h j), List.map_cons, List.sum_cons]
      ring_nf

lemma length_g_foldl_records (today : ℤ) (g : NoveltyFactors → List ℝ)
    (f : HistoryRecord → List ℕ)
    (hcompat : ∀ nf r, g (applyRecord today nf r)
      = (f r).foldl (fun a t => applyPenalty a t (penaltyOf today r)) (g nf))
    (h : List HistoryRecord) (nf : NoveltyFactors) :
    (g (h.foldl (applyRecord today) nf)).length = (g nf).length := by
  induction h generalizing nf with
  | nil => rfl
  | cons r h ih =>
      rw [List.foldl_cons, ih, hcompat, length_foldl_applyPenalty]

lemma compat_toppings (today : ℤ) : ∀ (nf : NoveltyFactors) (r : HistoryRecord),
    (applyRecord today nf r).toppings
      = r.toppings.foldl (fun a t => applyPenalty a t (penaltyOf today r)) nf.toppings :=
  fun _ _ => rfl

lemma compat_tea (today : ℤ) : ∀ (nf : NoveltyFactors) (r : HistoryRecord),
    (applyRecord today nf r).tea_type
      = [r.tea_type].foldl (fun a t => applyPenalty a t (penaltyOf today r)) nf.tea_type :=
  fun _ _ => rfl

lemma compat_ice (today : ℤ) : ∀ (nf : NoveltyFactors) (r : HistoryRecord),
    (applyRecord today nf r).ice_category
      = [r.ice_category].foldl (fun a t => applyPenalty a t (penaltyOf today r)) nf.ice_category :=
  fun _ _ => rfl

lemma getD_replicate_one {n j : ℕ} (h : j < n) : (List.replicate n (1:ℝ)).getD j 0 = 1 := by
  rw [List.getD_eq_getElem?_getD, List.getElem?_replicate, if_pos h]
  rfl

lemma initial_toppings : initialFactors.toppings = List.replicate Order.topping_list.length 1 :=
  rfl

lemma initial_tea : initialFactors.tea_type = List.replicate Order.tea_types.length 1 := rfl

lemma initial_ice : initialFactors.ice_category = List.replicate Order.ice_categories.length 1 :=
  rfl

lemma noveltyFactors_toppings_getD (h : List HistoryRecord) (today : ℤ) {j : ℕ}
    (hj : j < Order.topping_list.length) :
    (noveltyFactors h today).toppings.getD j 0
      = max (1 - (h.map fun r => ((r.toppings.count j : ℝ)) * penaltyOf today r).sum) 0 := by
  unfold noveltyFactors
  rw [getD_foldl_records today NoveltyFactors.toppings HistoryRecord.toppings
    (compat_toppings today) h initialFactors j
    (by rw [initial_toppings, List.length_replicate]; exact hj)
    (by rw [initial_toppings, getD_replicate_one hj]; norm_num),
    initial_toppings, getD_replicate_one hj]

lemma singleton_count_mul (t j : ℕ) (p : ℝ) :
    (([t].count j : ℝ)) * p = if t = j then p else 0 := by
  by_cases h : t = j
  · subst h; simp
  · simp [List.count_singleton', h, Ne.symm h]

lemma noveltyFactors_tea_getD (h : List HistoryRecord) (today : ℤ) {j : ℕ}
    (hj : j < Order.tea_types.length) :
    (noveltyFactors h today).tea_type.getD j 0
      = max (1 - (h.map fun r =>
          if r.tea_type = j then penaltyOf today r else 0).sum) 0 := by
  unfold noveltyFactors
  rw [getD_foldl_records today NoveltyFactors.tea_type (fun r => [r.tea_type])
    (compat_tea today) h initialFactors j
    (by rw [initial_tea, List.length_replicate]; exact hj)
    (by rw [initial_tea, getD_replicate_one hj]; norm_num),
    initial_tea, getD_replicate_one hj]
  congr 2
  exact congrArg List.sum (List.map_congr_left fun r _ => singleton_count_mul r.tea_type j _)

lemma noveltyFactors_ice_getD (h : List HistoryRecord) (today : ℤ) {j : ℕ}
    (hj : j < Order.ice_categories.length) :
    (noveltyFactors h today).ice_category.getD j 0
      = max (1 - (h.map fun r =>
          if r.ice_category = j then penaltyOf today r else 0).sum) 0 := by
  unfold noveltyFactors
  rw [getD_foldl_records today NoveltyFactors.ice_category (fun r => [r.ice_category])
    (compat_ice today) h initialFactors j
    (by rw [initial_ice, List.length_replicate]; exact hj)
    (by rw [initial_ice, getD_replicate_one hj]; norm_num),
    initial_ice, getD_replicate_one hj]
  congr 2
  exact congrArg List.sum (List.map_congr_left fun r _ => singleton_count_mul r.ice_category j _)

lemma noveltyFactors_toppings_length (h : List HistoryRecord) (today : ℤ) :
    (noveltyFactors h today).toppings.length = Order.topping_list.length := by
  unfold noveltyFactors
  rw [length_g_foldl_records today NoveltyFactors.toppings HistoryRecord.toppings
    (compat_toppings today) h initialFactors, initial_toppings, List.length_replicate]

lemma noveltyFactors_tea_length (h : List HistoryRecord) (today : ℤ) :
    (noveltyFactors h today).tea_type.length = Order.tea_types.length := by
  unfold noveltyFactors
  rw [length_g_foldl_records today NoveltyFactors.tea_type (fun r => [r.tea_type])
    (compat_tea today) h initialFactors, initial_tea, List.length_replicate]

lemma noveltyFactors_ice_length (h : List HistoryRecord) (today : ℤ) :
    (noveltyFactors h today).ice_category.length = Order.ice_categories.length := by
  unfold noveltyFactors
  rw [length_g_foldl_records today NoveltyFactors.ice_category (fun r => [r.ice_category])
    (compat_ice today) h initialFactors, initial_ice, List.length_replicate]

lemma nf_ext {a b : NoveltyFactors} (h1 : a.toppings = b.toppings)
    (h2 : a.tea_type = b.tea_type) (h3 : a.ice_category = b.ice_category) : a = b := by
  cases a; cases b; simp_all

lemma getElem_eq_getD {l : List ℝ} {i : ℕ} (h : i < l.length) : l[i] = l.getD i 0 := by
  rw [List.getD_eq_getElem?_getD, List.getElem?_eq_getElem h]
  rfl

end ClosedForm

/-- C1 (amended): the weight of a value is `max(1 - S, 0)` where `S` sums
`count * penalty` over the history — each record contributes once per
OCCURRENCE of the value in it (for the single-valued domains the count is
0 or 1, so this is the per-record sum; a record listing the same topping
twice contributes its penalty twice).  A value referenced by no record
keeps weight 1, and the weight vectors are invariant under permuting the
history records. -/
theorem C1_weight_closed_form (h : List HistoryRecord) (today : ℤ)
    (hdays : ∀ r ∈ h, r.date ≤ today) :
    (∀ j < Order.topping_list.length, (noveltyFactors h today).toppings.getD j 0
        = max (1 - (h.map fun r => ((r.toppings.count j : ℝ)) * penaltyOf today r).sum) 0)
    ∧ (∀ j < Order.tea_types.length, (noveltyFactors h today).tea_type.getD j 0
        = max (1 - (h.map fun r => if r.tea_type = j then penaltyOf today r else 0).sum) 0)
    ∧ (∀ j < Order.ice_categories.length, (noveltyFactors h today).ice_category.getD j 0
        = max (1 - (h.map fun r => if r.ice_category = j then penaltyOf today r else 0).sum) 0)
    ∧ (∀ j < Order.topping_list.length, (∀ r ∈ h, r.toppings.count j = 0) →
        (noveltyFactors h today).toppings.getD j 0 = 1)
    ∧ (∀ h' : List HistoryRecord, h.Perm h' →
        noveltyFactors h today = noveltyFactors h' today) := by
  refine ⟨fun j hj => noveltyFactors_toppings_getD h today hj,
    fun j hj => noveltyFactors_tea_getD h today hj,
    fun j hj => noveltyFactors_ice_getD h today hj, ?_, ?_⟩
  · intro j hj hnone
    rw [noveltyFactors_toppings_getD h today hj]
    have hz : (h.map fun r => ((r.toppings.count j : ℝ)) * penaltyOf today r).sum = 0 := by
      apply List.sum_eq_zero
      intro x hx
      obtain ⟨r, hr, rfl⟩ := List.mem_map.mp hx
      rw [hnone r hr]
      norm_num
    rw [hz]
    norm_num
  · intro h' hp
    have hsum : ∀ f : HistoryRecord → ℝ, (h.map f).sum = (h'.map f).sum :=
      fun f => (hp.map f).sum_eq
    refine nf_ext ?_ ?_ ?_
    · refine List.ext_getElem (by rw [noveltyFactors_toppings_length,
        noveltyFactors_toppings_length]) fun i h1 h2 => ?_
      have hi : i < Order.topping_list.length := by
        rwa [noveltyFactors_toppings_length] at h1
      rw [getElem_eq_getD h1, getElem_eq_getD h2, noveltyFactors_toppings_getD h today hi,
        noveltyFactors_toppings_getD h' today hi, hsum]
    · refine List.ext_getElem (by rw [noveltyFactors_tea_length,
        noveltyFactors_tea_length]) fun i h1 h2 => ?_
      have hi : i < Order.tea_types.length := by
        rwa [noveltyFactors_tea_length] at h1
      rw [getElem_eq_getD h1, getElem_eq_getD h2, noveltyFactors_tea_getD h today hi,
        noveltyFactors_tea_getD h' today hi, hsum]
    · refine List.ext_getElem (by rw [noveltyFactors_ice_length,
        noveltyFactors_ice_length]) fun i h1 h2 => ?_
      have hi : i < Order.ice_categories.length := by
        rwa [noveltyFactors_ice_length] at h1
      rw [getElem_eq_getD h1, getElem_eq_getD h2, noveltyFactors_ice_getD h today hi,
        noveltyFactors_ice_getD h' today hi, hsum]

/-- Witness for C1 at a concrete one-record history. -/
theorem C1_witness :
    (noveltyFactors [⟨[2], 1, 50, 0, 0⟩] 0).toppings.getD 2 0
      = max (1 - (([⟨[2], 1, 50, 0, 0⟩] : List HistoryRecord).map
          fun r => ((r.toppings.count 2 : ℝ)) * penaltyOf 0 r).sum) 0
    ∧ noveltyFactors [⟨[2], 1, 50, 0, 0⟩] 0
        = noveltyFactors [⟨[2], 1, 50, 0, 0⟩] 0 :=
  ⟨(C1_weight_closed_form [⟨[2], 1, 50, 0, 0⟩] 0
      (by intro r hr; rw [List.mem_singleton.mp hr])).1 2 (by decide),
   (C1_weight_closed_form [⟨[2], 1, 50, 0, 0⟩] 0
      (by intro r hr; rw [List.mem_singleton.mp hr])).2.2.2.2 _ (List.Perm.refl _)⟩

/-- Counterexample to C1 as stated: for the history with the single
record `{toppings: [0, 0], date: 3 days ago}` (a record shape the
program itself can store, since the bootstrap branch does not
deduplicate toppings), the computed weight of topping 0 differs from
`max(1 - S, 0)` when `S` sums the penalty once per record that
references the value: the code subtracts the penalty once per
occurrence. -/
theorem C1_counterexample :
    (noveltyFactors [⟨[0, 0], 1, 50, 2, 0⟩] 3).toppings.getD 0 0
      ≠ max (1 - (([⟨[0, 0], 1, 50, 2, 0⟩] : List HistoryRecord).map
          fun r => if 0 ∈ r.toppings then penaltyOf 3 r else 0).sum) 0 := by
  have hsqrt_lt : Real.sqrt 15 < 5 := by
    have h := Real.sqrt_lt_sqrt (by norm_num : (0:ℝ) ≤ 15) (by norm_num : (15:ℝ) < 25)
    rwa [sqrt_25] at h
  have hsqrt_ge : (5:ℝ)/2 ≤ Real.sqrt 15 := by
    have h : Real.sqrt (25/4) ≤ Real.sqrt 15 := Real.sqrt_le_sqrt (by norm_num)
    rwa [show (25/4:ℝ) = (5/2)^2 by norm_num,
      Real.sqrt_sq (by norm_num : (0:ℝ) ≤ 5/2)] at h
  have hpen : penaltyOf 3 (⟨[0, 0], 1, 50, 2, 0⟩ : HistoryRecord)
      = 1 - Real.sqrt 15 / 5 := by
    unfold penaltyOf novelty_penalty novelty_reset
    rw [show (((3 - 0 : ℤ)) : ℝ) = 3 by norm_num, show (5:ℝ) * 3 = 15 by norm_num]
    exact max_eq_left (by nlinarith)
  rw [noveltyFactors_toppings_getD _ _ (by decide : 0 < Order.topping_list.length)]
  rw [List.map_singleton, List.map_singleton, List.sum_singleton, List.sum_singleton]
  rw [show (List.count 0 ([0, 0] : List ℕ) : ℝ) = 2 by norm_num [List.count_cons]]
  rw [if_pos (by norm_num : (0:ℕ) ∈ ([0, 0] : List ℕ)), hpen]
  rw [max_eq_left (by nlinarith), max_eq_left (by nlinarith)]
  intro heq
  nlinarith

section Selector

lemma sumTo_nonneg (w : List ℝ) (hw : ∀ x ∈ w, 0 ≤ x) (i : ℕ) : 0 ≤ sumTo w i :=
  List.sum_nonneg fun x hx => hw x (List.mem_of_mem_take hx)

lemma sumTo_mono (w : List ℝ) (hw : ∀ x ∈ w, 0 ≤ x) {i k : ℕ} (hik : i ≤ k) :
    sumTo w i ≤ sumTo w k := by
  unfold sumTo
  have hsplit : w.take k = w.take i ++ (w.take k).drop i := by
    conv_lhs => rw [← List.take_append_drop i (w.take k)]
    rw [List.take_take, min_eq_left hik]
  have hsum : (w.take k).sum = (w.take i).sum + ((w.take k).drop i).sum := by
    conv_lhs => rw [hsplit]
    rw [List.sum_append]
  have hd : 0 ≤ ((w.take k).drop i).sum :=
    List.sum_nonneg fun x hx => hw x (List.mem_of_mem_take (List.mem_of_mem_drop hx))
  linarith

lemma sumTo_length (w : List ℝ) : sumTo w w.length = w.sum := by
  unfold sumTo
  rw [List.take_length]

lemma sumTo_succ_getD (w : List ℝ) {i : ℕ} (hi : i < w.length) :
    sumTo w (i + 1) = sumTo w i + w.getD i 0 := by
  unfold sumTo
  rw [List.sum_take_succ w i hi]
  congr 1
  exact getElem_eq_getD hi

lemma sumTo_zero (w : List ℝ) : sumTo w 0 = 0 := rfl

lemma countP_range_mono_spec (f : ℕ → Bool) (m : ℕ)
    (hmono : ∀ j k : ℕ, j ≤ k → k < m → f k = true → f j = true) :
    (∀ j, j < (List.range m).countP f → f j = true)
      ∧ (∀ j, (List.range m).countP f ≤ j → j < m → f j = false) := by
  induction m with
  | zero =>
      refine ⟨fun j hj => ?_, fun j _ hj => absurd hj (Nat.not_lt_zero j)⟩
      simp at hj
  | succ m ih =>
      have hmono' : ∀ j k : ℕ, j ≤ k → k < m → f k = true → f j = true :=
        fun j k hjk hk hf => hmono j k hjk (Nat.lt_succ_of_lt hk) hf
      obtain ⟨ih1, ih2⟩ := ih hmono'
      have hcount : (List.range (m + 1)).countP f
          = (List.range m).countP f + if f m then 1 else 0 := by
        rw [List.range_succ, List.countP_append, List.countP_cons, List.countP_nil]
        simp
      have hle : (List.range m).countP f ≤ m := by
        calc (List.range m).countP f ≤ (List.range m).length := List.countP_le_length f
          _ = m := List.length_range m
      by_cases hf : f m = true
      · have hcm : (List.range m).countP f = m := by
          by_contra hne
          have hlt : (List.range m).countP f < m := lt_of_le_of_ne hle hne
          have h1 := ih2 _ le_rfl hlt
          have h2 := hmono _ m hlt.le (Nat.lt_succ_self m) hf
          rw [h1] at h2
          exact Bool.false_ne_true h2
      -- with f m true, every earlier index also satisfies f, so the count is m + 1
        refine ⟨fun j hj => ?_, fun j hj hjm => ?_⟩
        · rw [hcount, hcm, if_pos hf] at hj
          rcases Nat.lt_succ_iff_lt_or_eq.mp hj with h | h
          · exact hmono j m (Nat.le_of_lt h) (Nat.lt_succ_self m) hf
          · rw [h]; exact hf
        · rw [hcount, hcm, if_pos hf] at hj
          exact absurd hjm (Nat.not_lt.mpr hj)
      · have hf' : f m = false := Bool.eq_false_iff.mpr hf
        refine ⟨fun j hj => ?_, fun j hj hjm => ?_⟩
        · rw [hcount, hf'] at hj
          simp only [Bool.false_eq_true, if_false, Nat.add_zero] at hj
          exact ih1 j hj
        · rw [hcount, hf'] at hj
          simp only [Bool.false_eq_true, if_false, Nat.add_zero] at hj
          rcases Nat.lt_succ_iff_lt_or_eq.mp hjm with h | h
          · exact ih2 j hj h
          · rw [h]; exact hf'

lemma choicesWeighted_eq_countP_range (w : List ℝ) (u : ℝ) :
    choicesWeighted w u
      = (List.range (w.length - 1)).countP
          fun i => decide (sumTo w (i + 1) ≤ u * w.sum) := by
  unfold choicesWeighted cumulative
  rw [← List.map_take, List.take_range, min_eq_left (Nat.sub_le _ _), List.countP_map]
  rfl

lemma choicesWeighted_spec (w : List ℝ) (hw : ∀ x ∈ w, 0 ≤ x) (hT : 0 < w.sum)
    (u : ℝ) (hu0 : 0 ≤ u) (hu1 : u < 1) :
    sumTo w (choicesWeighted w u) ≤ u * w.sum
      ∧ u * w.sum < sumTo w (choicesWeighted w u + 1)
      ∧ choicesWeighted w u < w.length := by
  have hn : 0 < w.length := by
    rcases Nat.eq_zero_or_pos w.length with h | h
    · rw [List.length_eq_zero] at h
      rw [h, List.sum_nil] at hT
      exact absurd hT (lt_irrefl 0)
    · exact h
  have hmono : ∀ j k : ℕ, j ≤ k → k < w.length - 1 →
      (decide (sumTo w (k + 1) ≤ u * w.sum) = true) →
      (decide (sumTo w (j + 1) ≤ u * w.sum) = true) := by
    intro j k hjk _ hk
    rw [decide_eq_true_eq] at hk ⊢
    exact le_trans (sumTo_mono w hw (Nat.add_le_add_right hjk 1)) hk
  obtain ⟨spec1, spec2⟩ := countP_range_mono_spec _ (w.length - 1) hmono
  rw [← choicesWeighted_eq_countP_range] at spec1 spec2
  have hcle : choicesWeighted w u ≤ w.length - 1 := by
    rw [choicesWeighted_eq_countP_range]
    calc (List.range (w.length - 1)).countP _ ≤ (List.range (w.length - 1)).length :=
          List.countP_le_length _
      _ = w.length - 1 := List.length_range _
  have hclt : choicesWeighted w u < w.length := lt_of_le_of_lt hcle (by omega)
  refine ⟨?_, ?_, hclt⟩
  · rcases Nat.eq_zero_or_pos (choicesWeighted w u) with h0 | h0
    · rw [h0, sumTo_zero]
      exact mul_nonneg hu0 hT.le
    · obtain ⟨c, hc⟩ := Nat.exists_eq_succ_of_ne_zero h0.ne'
      have := spec1 c (by omega)
      rw [decide_eq_true_eq] at this
      rw [hc]
      exact this
  · rcases lt_or_le (choicesWeighted w u) (w.length - 1) with h | h
    · have := spec2 _ le_rfl h
      rw [decide_eq_false_iff_not] at this
      exact lt_of_not_le this
    · have hceq : choicesWeighted w u = w.length - 1 := le_antisymm hcle h
      have hsucc : choicesWeighted w u + 1 = w.length := by omega
      rw [hsucc, sumTo_length]
      exact mul_lt_of_lt_one_left hT hu1

lemma sumTo_sandwich_unique (w : List ℝ) (hw : ∀ x ∈ w, 0 ≤ x) {t : ℝ} {i j : ℕ}
    (hi : sumTo w i ≤ t ∧ t < sumTo w (i + 1))
    (hj : sumTo w j ≤ t ∧ t < sumTo w (j + 1)) : i = j := by
  rcases lt_trichotomy i j with h | h | h
  · have : sumTo w (i + 1) ≤ sumTo w j := sumTo_mono w hw (by omega)
    linarith [hi.2, hj.1]
  · exact h
  · have : sumTo w (j + 1) ≤ sumTo w i := sumTo_mono w hw (by omega)
    linarith [hi.1, hj.2]

lemma choicesWeighted_eq_iff (w : List ℝ) (hw : ∀ x ∈ w, 0 ≤ x) (hT : 0 < w.sum)
    (u : ℝ) (hu0 : 0 ≤ u) (hu1 : u < 1) (i : ℕ) :
    choicesWeighted w u = i ↔ sumTo w i ≤ u * w.sum ∧ u * w.sum < sumTo w (i + 1) := by
  obtain ⟨h1, h2, _⟩ := choicesWeighted_spec w hw hT u hu0 hu1
  constructor
  · intro h
    rw [← h]
    exact ⟨h1, h2⟩
  · intro h
    exact sumTo_sandwich_unique w hw ⟨h1, h2⟩ h

lemma choicesUniform_eq_iff (n : ℕ) (u : ℝ) (hu0 : 0 ≤ u) (i : ℕ) :
    choicesUniform n u = i ↔ (i : ℝ) ≤ u * n ∧ u * n < i + 1 :=
  Nat.floor_eq_iff (mul_nonneg hu0 (Nat.cast_nonneg n))

end Selector

/-- C4: for a weight vector with non-negative entries, the per-domain
draw of lines 128–133 samples uniformly when the weights sum to 0 (the
preimage of each value among the uniform draws `u ∈ [0,1)` is an
interval of length `1/n`), samples proportionally to the weights when
the sum is positive (the preimage of value `i` is an interval of length
`wᵢ / Σw`), and in the positive-sum case never selects a value of
weight 0. -/
theorem C4_selector (w : List ℝ) (hw : ∀ x ∈ w, 0 ≤ x) (i : ℕ) (hi : i < w.length) :
    (w.sum = 0 →
      ({u : ℝ | 0 ≤ u ∧ u < 1 ∧ selectIdx w u = i}
          = Set.Ico ((i : ℝ) / w.length) (((i : ℝ) + 1) / w.length)
        ∧ ((i : ℝ) + 1) / w.length - (i : ℝ) / w.length = 1 / w.length))
    ∧ (0 < w.sum →
      ({u : ℝ | 0 ≤ u ∧ u < 1 ∧ selectIdx w u = i}
          = Set.Ico (sumTo w i / w.sum) (sumTo w (i + 1) / w.sum)
        ∧ sumTo w (i + 1) / w.sum - sumTo w i / w.sum = w.getD i 0 / w.sum))
    ∧ (0 < w.sum → w.getD i 0 = 0 →
        ∀ u : ℝ, 0 ≤ u → u < 1 → selectIdx w u ≠ i) := by
  have hn : 0 < w.length := lt_of_le_of_lt (Nat.zero_le i) hi
  have hnR : (0 : ℝ) < w.length := by exact_mod_cast hn
  refine ⟨fun hsum => ⟨?_, ?_⟩, fun hT => ⟨?_, ?_⟩, fun hT hzero u hu0 hu1 hsel => ?_⟩
  · ext u
    simp only [Set.mem_setOf_eq, Set.mem_Ico]
    constructor
    · rintro ⟨hu0, hu1, hsel⟩
      simp only [selectIdx, if_pos hsum] at hsel
      rw [choicesUniform_eq_iff _ u hu0] at hsel
      exact ⟨(div_le_iff₀ hnR).mpr hsel.1, (lt_div_iff₀ hnR).mpr hsel.2⟩
    · rintro ⟨hl, hr⟩
      have hu0 : 0 ≤ u := le_trans (by positivity) hl
      have hip : ((i : ℝ) + 1) / w.length ≤ 1 := by
        rw [div_le_one hnR]
        have : (i : ℕ) + 1 ≤ w.length := hi
        exact_mod_cast this
      have hu1 : u < 1 := lt_of_lt_of_le hr hip
      refine ⟨hu0, hu1, ?_⟩
      simp only [selectIdx, if_pos hsum]
      rw [choicesUniform_eq_iff _ u hu0]
      exact ⟨(div_le_iff₀ hnR).mp hl, (lt_div_iff₀ hnR).mp hr⟩
  · rw [div_sub_div_same]
    norm_num
  · ext u
    simp only [Set.mem_setOf_eq, Set.mem_Ico]
    constructor
    · rintro ⟨hu0, hu1, hsel⟩
      simp only [selectIdx, if_neg hT.ne'] at hsel
      rw [choicesWeighted_eq_iff w hw hT u hu0 hu1] at hsel
      exact ⟨(div_le_iff₀ hT).mpr hsel.1, (lt_div_iff₀ hT).mpr hsel.2⟩
    · rintro ⟨hl, hr⟩
      have hu0 : 0 ≤ u :=
        le_trans (div_nonneg (sumTo_nonneg w hw i) hT.le) hl
      have hle1 : sumTo w (i + 1) / w.sum ≤ 1 := by
        rw [div_le_one hT]
        calc sumTo w (i + 1) ≤ sumTo w w.length := sumTo_mono w hw hi
          _ = w.sum := sumTo_length w
      have hu1 : u < 1 := lt_of_lt_of_le hr hle1
      refine ⟨hu0, hu1, ?_⟩
      simp only [selectIdx, if_neg hT.ne']
      rw [choicesWeighted_eq_iff w hw hT u hu0 hu1]
      exact ⟨(div_le_iff₀ hT).mp hl, (lt_div_iff₀ hT).mp hr⟩
  · rw [div_sub_div_same, sumTo_succ_getD w hi]
    congr 1
    ring
  · simp only [selectIdx, if_neg hT.ne'] at hsel
    rw [choicesWeighted_eq_iff w hw hT u hu0 hu1] at hsel
    obtain ⟨h1, h2⟩ := hsel
    rw [sumTo_succ_getD w hi, hzero, add_zero] at h2
    linarith

/-- Witness for C4 with the concrete weight vector `[0, 2]`. -/
theorem C4_witness :
    (0 : ℝ) < ([0, 2] : List ℝ).sum
    ∧ ({u : ℝ | 0 ≤ u ∧ u < 1 ∧ selectIdx [0, 2] u = 1}
        = Set.Ico (sumTo [0, 2] 1 / ([0, 2] : List ℝ).sum)
            (sumTo [0, 2] 2 / ([0, 2] : List ℝ).sum)
      ∧ sumTo [0, 2] 2 / ([0, 2] : List ℝ).sum - sumTo [0, 2] 1 / ([0, 2] : List ℝ).sum
          = ([0, 2] : List ℝ).getD 1 0 / ([0, 2] : List ℝ).sum)
    ∧ (∀ u : ℝ, 0 ≤ u → u < 1 → selectIdx [0, 2] u ≠ 0) := by
  have hw : ∀ x ∈ ([0, 2] : List ℝ), 0 ≤ x := by
    intro x hx
    simp only [List.mem_cons, List.not_mem_nil, or_false, List.mem_singleton] at hx
    rcases hx with rfl | rfl <;> norm_num
  have hsum : (0 : ℝ) < ([0, 2] : List ℝ).sum := by norm_num
  exact ⟨hsum,
    (C4_selector [0, 2] hw 1 (by norm_num)).2.1 hsum,
    (C4_selector [0, 2] hw 0 (by norm_num)).2.2 hsum (by norm_num)⟩

section Constructors

lemma mapM_eq_some_map {α β : Type} (f : α → Option β) (g : α → β) (ts : List α)
    (h : ∀ t ∈ ts, f t = some (g t)) : ts.mapM f = some (ts.map g) := by
  induction ts with
  | nil => rfl
  | cons a l ih =>
      rw [List.mapM_cons, h a (List.mem_cons_self a l),
        ih fun t ht => h t (List.mem_cons_of_mem a ht)]
      rfl

lemma getElem?_eq_some_getD {l : List String} {i : ℕ} (h : i < l.length) :
    l[i]? = some (l.getD i "") := by
  rw [List.getElem?_eq_getElem h, List.getD_eq_getElem?_getD, List.getElem?_eq_getElem h]
  rfl

lemma emod_toNat_lt (t : ℤ) (n : ℕ) (hn : 0 < n) : (t % (n : ℤ)).toNat < n := by
  have h0 : (0 : ℤ) ≤ t % (n : ℤ) := Int.emod_nonneg t (by exact_mod_cast hn.ne')
  have h1 : t % (n : ℤ) < (n : ℤ) := Int.emod_lt_of_pos t (by exact_mod_cast hn)
  omega

lemma Order.init_eq_some (ts : List ℤ) (tt s ic : ℤ) :
    Order.init ts tt s ic = some
      { toppings := ts.map fun t =>
          Order.topping_list.getD (t % (Order.topping_list.length : ℤ)).toNat "",
        tea_type := Order.tea_types.getD (tt % (Order.tea_types.length : ℤ)).toNat "",
        sugar_percentage := s % 100,
        ice_category :=
          Order.ice_categories.getD (ic % (Order.ice_categories.length : ℤ)).toNat "" } := by
  unfold Order.init
  rw [mapM_eq_some_map _
      (fun t => Order.topping_list.getD (t % (Order.topping_list.length : ℤ)).toNat "") ts
      (fun t _ => getElem?_eq_some_getD (emod_toNat_lt t _ (by decide))),
    getElem?_eq_some_getD (emod_toNat_lt tt _ (by decide)),
    getElem?_eq_some_getD (emod_toNat_lt ic _ (by decide))]
  rfl

lemma floor_mul_len_lt {x : ℝ} (hx0 : 0 ≤ x) (hx1 : x < 1) {n : ℕ} (hn : 0 < n) :
    ⌊x * (n : ℝ)⌋₊ < n := by
  have hnR : (0 : ℝ) < n := by exact_mod_cast hn
  exact (Nat.floor_lt (mul_nonneg hx0 hnR.le)).mpr (mul_lt_of_lt_one_left hnR hx1)

lemma Order.initUniform_eq_some (ts : List ℝ) (tt s ic : ℝ)
    (hts : ∀ t ∈ ts, 0 ≤ t ∧ t < 1) (htt0 : 0 ≤ tt) (htt1 : tt < 1)
    (hic0 : 0 ≤ ic) (hic1 : ic < 1) :
    Order.initUniform ts tt s ic = some
      { toppings := ts.map fun t =>
          Order.topping_list.getD ⌊t * (Order.topping_list.length : ℝ)⌋₊ "",
        tea_type := Order.tea_types.getD ⌊tt * (Order.tea_types.length : ℝ)⌋₊ "",
        sugar_percentage := ⌊s * 100⌋,
        ice_category :=
          Order.ice_categories.getD ⌊ic * (Order.ice_categories.length : ℝ)⌋₊ "" } := by
  unfold Order.initUniform
  rw [mapM_eq_some_map _
      (fun t => Order.topping_list.getD ⌊t * (Order.topping_list.length : ℝ)⌋₊ "") ts
      (fun t ht => getElem?_eq_some_getD
        (floor_mul_len_lt (hts t ht).1 (hts t ht).2 (by decide))),
    getElem?_eq_some_getD (floor_mul_len_lt htt0 htt1 (by decide)),
    getElem?_eq_some_getD (floor_mul_len_lt hic0 hic1 (by decide))]
  rfl

end Constructors

/-- C6 (amended): building an `Order` from arbitrary integer indices
(`from_uniform=False`) always succeeds — the modulo keeps every index in
range — and building it from fractional indices (`from_uniform=True`)
always succeeds for fractions in `[0, 1)`; at a fraction equal to 1.0
(which the code comment admits) the access is out of range, see the
counterexample. -/
theorem C6_index_validity :
    (∀ (ts : List ℤ) (tt s ic : ℤ), (Order.init ts tt s ic).isSome = true)
    ∧ (∀ (ts : List ℝ) (tt s ic : ℝ), (∀ t ∈ ts, 0 ≤ t ∧ t < 1) →
        0 ≤ tt → tt < 1 → 0 ≤ ic → ic < 1 →
        (Order.initUniform ts tt s ic).isSome = true) := by
  constructor
  · intro ts tt s ic
    rw [Order.init_eq_some]
    rfl
  · intro ts tt s ic hts htt0 htt1 hic0 hic1
    rw [Order.initUniform_eq_some ts tt s ic hts htt0 htt1 hic0 hic1]
    rfl

/-- Witness for C6 at concrete inputs (out-of-range and negative integer
indices included). -/
theorem C6_witness :
    (Order.init [11, -3] 9 250 7).isSome = true
    ∧ (Order.initUniform [1/2] (99/100) (1/2) 0).isSome = true :=
  ⟨C6_index_validity.1 [11, -3] 9 250 7,
   C6_index_validity.2 [1/2] (99/100) (1/2) 0
     (by intro t ht; rw [List.mem_singleton.mp ht]; norm_num)
     (by norm_num) (by norm_num) le_rfl (by norm_num)⟩

/-- Counterexample to C6 as stated: at the fractional index 1.0 — inside
the interval `0.0 <= x <= 1.0` the code comment documents — the
`from_uniform=True` path computes index `int(1.0 * 10) = 10` and the
list access fails (`none`, a Python `IndexError`). -/
theorem C6_counterexample : Order.initUniform [1] 0 0 0 = none := by
  unfold Order.initUniform
  have h10 : ⌊(1 : ℝ) * (Order.topping_list.length : ℝ)⌋₊ = 10 := by
    rw [one_mul, show ((Order.topping_list.length : ℕ) : ℝ) = (10 : ℝ) by norm_num [Order.topping_list]]
    exact Nat.floor_ofNat 10
  have hnone : Order.topping_list[(10 : ℕ)]? = none := rfl
  rw [List.mapM_cons]
  rw [h10, hnone]
  rfl

section RoundTrip

/-- Encoding an order with `to_dict` and rebuilding it through
`Order.__init__` with `from_uniform=False` (index modulo domain size),
as in loading a stored history record back into an `Order`. -/
def orderRoundTrip (o : Order) : Option Order :=
  Order.init (o.to_dict.toppings.map (Nat.cast : ℕ → ℤ)) (o.to_dict.tea_type : ℤ)
    o.to_dict.sugar_percentage (o.to_dict.ice_category : ℤ)

lemma getD_indexOf_mod {l : List String} {t : String} (ht : t ∈ l) :
    l.getD ((((l.indexOf t : ℕ) : ℤ) % (l.length : ℤ)).toNat) "" = t := by
  have hlt : l.indexOf t < l.length := List.indexOf_lt_length.mpr ht
  have hmod : ((l.indexOf t : ℕ) : ℤ) % (l.length : ℤ) = ((l.indexOf t : ℕ) : ℤ) :=
    Int.emod_eq_of_lt (Int.natCast_nonneg _) (by exact_mod_cast hlt)
  rw [hmod, Int.toNat_natCast, List.getD_eq_getElem l _ hlt, List.getElem_indexOf hlt]

lemma roundTrip_of_valid (o : Order)
    (hts : ∀ t ∈ o.toppings, t ∈ Order.topping_list)
    (htea : o.tea_type ∈ Order.tea_types)
    (hice : o.ice_category ∈ Order.ice_categories)
    (hs0 : 0 ≤ o.sugar_percentage) (hs1 : o.sugar_percentage < 100) :
    orderRoundTrip o = some o := by
  rcases o with ⟨tops, tea, sugar, ice⟩
  unfold orderRoundTrip Order.to_dict
  rw [Order.init_eq_some]
  simp only [Option.some.injEq, Order.mk.injEq, List.map_map, Function.comp_def]
  refine ⟨?_, getD_indexOf_mod htea, Int.emod_eq_of_lt hs0 hs1, getD_indexOf_mod hice⟩
  conv_rhs => rw [← List.map_id tops]
  refine List.map_congr_left fun t ht => ?_
  simp only [id_eq]
  exact getD_indexOf_mod (hts t ht)

lemma getD_mem {l : List String} {i : ℕ} (h : i < l.length) : l.getD i "" ∈ l := by
  rw [List.getD_eq_getElem l _ h]
  exact List.getElem_mem h

lemma valid_of_init {ts : List ℤ} {tt s ic : ℤ} {o : Order}
    (h : Order.init ts tt s ic = some o) :
    (∀ t ∈ o.toppings, t ∈ Order.topping_list) ∧ o.tea_type ∈ Order.tea_types
      ∧ o.ice_category ∈ Order.ice_categories
      ∧ 0 ≤ o.sugar_percentage ∧ o.sugar_percentage < 100 := by
  rw [Order.init_eq_some, Option.some.injEq] at h
  subst h
  refine ⟨?_, getD_mem (emod_toNat_lt tt _ (by decide)),
    getD_mem (emod_toNat_lt ic _ (by decide)),
    Int.emod_nonneg s (by norm_num), Int.emod_lt_of_pos s (by norm_num)⟩
  intro t ht
  obtain ⟨x, _, rfl⟩ := List.mem_map.mp ht
  exact getD_mem (emod_toNat_lt x _ (by decide))

lemma valid_of_initUniform {ts : List ℝ} {tt s ic : ℝ} {o : Order}
    (hts : ∀ t ∈ ts, 0 ≤ t ∧ t < 1) (htt0 : 0 ≤ tt) (htt1 : tt < 1)
    (hs0 : 0 ≤ s) (hs1 : s < 1) (hic0 : 0 ≤ ic) (hic1 : ic < 1)
    (h : Order.initUniform ts tt s ic = some o) :
    (∀ t ∈ o.toppings, t ∈ Order.topping_list) ∧ o.tea_type ∈ Order.tea_types
      ∧ o.ice_category ∈ Order.ice_categories
      ∧ 0 ≤ o.sugar_percentage ∧ o.sugar_percentage < 100 := by
  rw [Order.initUniform_eq_some ts tt s ic hts htt0 htt1 hic0 hic1,
    Option.some.injEq] at h
  subst h
  refine ⟨?_, getD_mem (floor_mul_len_lt htt0 htt1 (by decide)),
    getD_mem (floor_mul_len_lt hic0 hic1 (by decide)), ?_, ?_⟩
  · intro t ht
    obtain ⟨x, hx, rfl⟩ := List.mem_map.mp ht
    exact getD_mem (floor_mul_len_lt (hts x hx).1 (hts x hx).2 (by decide))
  · rw [Int.le_floor]
    push_cast
    positivity
  · rw [Int.floor_lt]
    have : s * 100 < 1 * 100 := by
      apply mul_lt_mul_of_pos_right hs1
      norm_num
    simpa using this

end RoundTrip

/-- C8: encoding a constructed `Order` with `to_dict` and rebuilding it
from those indices with `from_uniform=False` reproduces exactly the same
toppings, tea type, ice category and sugar percentage — for orders built
by either construction path (for the fractional path, on inputs in
`[0, 1)`, the range the program's `random.random()` draws actually
inhabit). -/
theorem C8_to_dict_roundtrip :
    (∀ (ts : List ℤ) (tt s ic : ℤ) (o : Order),
        Order.init ts tt s ic = some o → orderRoundTrip o = some o)
    ∧ (∀ (ts : List ℝ) (tt s ic : ℝ) (o : Order),
        (∀ t ∈ ts, 0 ≤ t ∧ t < 1) → 0 ≤ tt → tt < 1 → 0 ≤ s → s < 1 →
        0 ≤ ic → ic < 1 →
        Order.initUniform ts tt s ic = some o → orderRoundTrip o = some o) := by
  constructor
  · intro ts tt s ic o h
    obtain ⟨h1, h2, h3, h4, h5⟩ := valid_of_init h
    exact roundTrip_of_valid o h1 h2 h3 h4 h5
  · intro ts tt s ic o hts htt0 htt1 hs0 hs1 hic0 hic1 h
    obtain ⟨h1, h2, h3, h4, h5⟩ := valid_of_initUniform hts htt0 htt1 hs0 hs1 hic0 hic1 h
    exact roundTrip_of_valid o h1 h2 h3 h4 h5

/-- Witness for C8 at a concrete integer-built order. -/
theorem C8_witness :
    orderRoundTrip ⟨["red bean"], "milk tea", 55, "regular"⟩
      = some ⟨["red bean"], "milk tea", 55, "regular"⟩ :=
  C8_to_dict_roundtrip.1 [3] 1 55 2 ⟨["red bean"], "milk tea", 55, "regular"⟩ (by decide)

section Generation

lemma choicesWeighted_lt_length (w : List ℝ) (hn : 0 < w.length) (u : ℝ) :
    choicesWeighted w u < w.length := by
  unfold choicesWeighted
  have h1 : ((cumulative w).take (w.length - 1)).countP (fun c => decide (c ≤ u * w.sum))
      ≤ ((cumulative w).take (w.length - 1)).length := List.countP_le_length _
  have h2 : ((cumulative w).take (w.length - 1)).length ≤ w.length - 1 := by
    rw [List.length_take]
    exact min_le_left _ _
  omega

lemma selectIdx_lt_length (w : List ℝ) (hn : 0 < w.length) {u : ℝ}
    (hu0 : 0 ≤ u) (hu1 : u < 1) : selectIdx w u < w.length := by
  unfold selectIdx
  by_cases h : w.sum = 0
  · rw [if_pos h]
    exact floor_mul_len_lt hu0 hu1 hn
  · rw [if_neg h]
    exact choicesWeighted_lt_length w hn u

lemma choiceRange13_bounds {u : ℝ} (hu0 : 0 ≤ u) (hu1 : u < 1) :
    1 ≤ choiceRange13 u ∧ choiceRange13 u ≤ 3 := by
  unfold choiceRange13
  have h3 : ⌊u * 3⌋₊ < 3 := by
    rw [Nat.floor_lt (mul_nonneg hu0 (by norm_num))]
    push_cast
    nlinarith
  omega

lemma choiceRange13_preimage {j : ℕ} (hj1 : 1 ≤ j) (hj3 : j ≤ 3) :
    {u : ℝ | 0 ≤ u ∧ u < 1 ∧ choiceRange13 u = j}
      = Set.Ico (((j : ℝ) - 1) / 3) ((j : ℝ) / 3) := by
  have hjR : (1 : ℝ) ≤ (j : ℝ) := by exact_mod_cast hj1
  have hjR3 : (j : ℝ) ≤ 3 := by exact_mod_cast hj3
  ext u
  simp only [Set.mem_setOf_eq, Set.mem_Ico]
  constructor
  · rintro ⟨hu0, hu1, hsel⟩
    unfold choiceRange13 at hsel
    have hfl : ⌊u * 3⌋₊ = j - 1 := by omega
    rw [Nat.floor_eq_iff (mul_nonneg hu0 (by norm_num))] at hfl
    obtain ⟨hl, hr⟩ := hfl
    have hcast : ((j - 1 : ℕ) : ℝ) = (j : ℝ) - 1 := by
      rw [Nat.cast_sub hj1]
      norm_num
    rw [hcast] at hl hr
    constructor
    · rw [div_le_iff₀ (by norm_num : (0:ℝ) < 3)]
      linarith
    · rw [lt_div_iff₀ (by norm_num : (0:ℝ) < 3)]
      linarith
  · rintro ⟨hl, hr⟩
    rw [div_le_iff₀ (by norm_num : (0:ℝ) < 3)] at hl
    rw [lt_div_iff₀ (by norm_num : (0:ℝ) < 3)] at hr
    have hu0 : 0 ≤ u := by nlinarith
    have hu1 : u < 1 := by nlinarith
    refine ⟨hu0, hu1, ?_⟩
    unfold choiceRange13
    have hfl : ⌊u * 3⌋₊ = j - 1 := by
      rw [Nat.floor_eq_iff (mul_nonneg hu0 (by norm_num))]
      have hcast : ((j - 1 : ℕ) : ℝ) = (j : ℝ) - 1 := by
        rw [Nat.cast_sub hj1]
        norm_num
      rw [hcast]
      constructor <;> linarith
    omega

lemma topping_indexOf_getD : ∀ i < Order.topping_list.length,
    Order.topping_list.indexOf (Order.topping_list.getD i "") = i := by decide

lemma topping_getD_inj {i j : ℕ} (hi : i < Order.topping_list.length)
    (hj : j < Order.topping_list.length)
    (h : Order.topping_list.getD i "" = Order.topping_list.getD j "") : i = j := by
  have h1 := topping_indexOf_getD i hi
  have h2 := topping_indexOf_getD j hj
  rw [← h1, h, h2]

lemma newOrderWeighted_eq (prev : List HistoryRecord) (today : ℤ) (d : Draws) :
    newOrderWeighted prev today d = some
      { toppings := (((List.range (choiceRange13 d.uk)).map fun i =>
            ((selectIdx (noveltyFactors prev today).toppings (d.uts i) : ℕ) : ℤ)).dedup.map
            fun t => Order.topping_list.getD (t % (Order.topping_list.length : ℤ)).toNat ""),
        tea_type := Order.tea_types.getD
          ((((selectIdx (noveltyFactors prev today).tea_type d.utea : ℕ) : ℤ)
            % (Order.tea_types.length : ℤ)).toNat) "",
        sugar_percentage := ⌊d.usugar * 100⌋ % 100,
        ice_category := Order.ice_categories.getD
          ((((selectIdx (noveltyFactors prev today).ice_category d.uice : ℕ) : ℤ)
            % (Order.ice_categories.length : ℤ)).toNat) "" } :=
  Order.init_eq_some _ _ _ _

end Generation

/-- C5 (amended): in the weighted (non-empty history) branch the
selection's toppings are deduplicated — the produced `Order` never lists
the same topping twice.  In the empty-history bootstrap branch no
deduplication is performed and a topping can repeat, see the
counterexample. -/
theorem C5_weighted_toppings_nodup (prev : List HistoryRecord) (today : ℤ) (d : Draws)
    (huts : ∀ i, 0 ≤ d.uts i ∧ d.uts i < 1) :
    ∃ o : Order, newOrderWeighted prev today d = some o ∧ o.toppings.Nodup := by
  refine ⟨_, newOrderWeighted_eq prev today d, ?_⟩
  have hw10 : (noveltyFactors prev today).toppings.length = Order.topping_list.length :=
    noveltyFactors_toppings_length prev today
  have hmem : ∀ t ∈ (((List.range (choiceRange13 d.uk)).map fun i =>
      ((selectIdx (noveltyFactors prev today).toppings (d.uts i) : ℕ) : ℤ)).dedup),
      ∃ m : ℕ, t = (m : ℤ) ∧ m < Order.topping_list.length := by
    intro t ht
    rw [List.mem_dedup] at ht
    obtain ⟨i, _, rfl⟩ := List.mem_map.mp ht
    refine ⟨selectIdx (noveltyFactors prev today).toppings (d.uts i), rfl, ?_⟩
    rw [← hw10]
    exact selectIdx_lt_length _ (by rw [hw10]; decide) (huts i).1 (huts i).2
  apply List.Nodup.map_on ?_ (List.nodup_dedup _)
  intro x hx y hy hxy
  obtain ⟨mx, rfl, hmx⟩ := hmem x hx
  obtain ⟨my, rfl, hmy⟩ := hmem y hy
  rw [Int.emod_eq_of_lt (Int.natCast_nonneg _) (by exact_mod_cast hmx),
    Int.emod_eq_of_lt (Int.natCast_nonneg _) (by exact_mod_cast hmy),
    Int.toNat_natCast, Int.toNat_natCast] at hxy
  exact congrArg _ (topping_getD_inj hmx hmy hxy)

/-- Witness for C5 at a concrete history and concrete draws. -/
theorem C5_witness :
    ∃ o : Order,
      newOrderWeighted [⟨[0], 1, 50, 0, 0⟩] 0 ⟨0, 0, fun i => 0, 0, 0⟩ = some o
        ∧ o.toppings.Nodup :=
  C5_weighted_toppings_nodup [⟨[0], 1, 50, 0, 0⟩] 0 ⟨0, 0, fun i => 0, 0, 0⟩
    fun i => ⟨le_rfl, by norm_num⟩

section Bootstrap

lemma frac_floor_roundtrip (m : ℕ) {L : ℝ} (hL : L ≠ 0) : ⌊((m : ℝ) / L) * L⌋₊ = m := by
  rw [div_mul_cancel₀ _ hL, Nat.floor_natCast]

lemma newOrderFirst_eq_clean (d : Draws) (huts : ∀ i, 0 ≤ d.uts i ∧ d.uts i < 1)
    (hutea : 0 ≤ d.utea ∧ d.utea < 1) (huice : 0 ≤ d.uice ∧ d.uice < 1) :
    newOrderFirst d = some
      { toppings := (List.range (choiceRange13 d.uk)).map fun i =>
          Order.topping_list.getD ⌊d.uts i * (Order.topping_list.length : ℝ)⌋₊ "",
        tea_type := Order.tea_types.getD ⌊d.utea * (Order.tea_types.length : ℝ)⌋₊ "",
        sugar_percentage := ⌊d.usugar * 100⌋,
        ice_category :=
          Order.ice_categories.getD ⌊d.uice * (Order.ice_categories.length : ℝ)⌋₊ "" } := by
  unfold newOrderFirst Order.generate_first
  have hfr : ∀ t ∈ (List.range (choiceRange13 d.uk)).map fun i =>
      ((⌊d.uts i * (Order.topping_list.length : ℝ)⌋₊ : ℝ) / (Order.topping_list.length : ℝ)),
      0 ≤ t ∧ t < 1 := by
    intro t ht
    obtain ⟨i, _, rfl⟩ := List.mem_map.mp ht
    have hm : ⌊d.uts i * (Order.topping_list.length : ℝ)⌋₊ < Order.topping_list.length :=
      floor_mul_len_lt (huts i).1 (huts i).2 (by decide)
    constructor
    · positivity
    · rw [div_lt_one (by norm_num [Order.topping_list])]
      exact_mod_cast hm
  rw [Order.initUniform_eq_some _ _ _ _ hfr hutea.1 hutea.2 huice.1 huice.2]
  simp only [Option.some.injEq, Order.mk.injEq, List.map_map, Function.comp_def,
    and_true, true_and]
  refine List.map_congr_left fun i _ => ?_
  rw [frac_floor_roundtrip _ (by norm_num [Order.topping_list])]

end Bootstrap

/-- Counterexample to C5 as stated: in the bootstrap branch (empty
history), with the count draw picking `k = 2` and both topping draws
landing on index 0, the generated order lists "tapioca" twice — the
bootstrap path does not deduplicate toppings. -/
theorem C5_counterexample :
    ∃ o : Order, newOrderFirst ⟨0, 1/2, fun i => 0, 0, 0⟩ = some o
      ∧ ¬ o.toppings.Nodup := by
  refine ⟨_, newOrderFirst_eq_clean ⟨0, 1/2, fun i => 0, 0, 0⟩
    (fun i => ⟨le_rfl, by norm_num⟩) ⟨le_rfl, by norm_num⟩ ⟨le_rfl, by norm_num⟩, ?_⟩
  have hk : choiceRange13 ((⟨0, 1/2, fun i => 0, 0, 0⟩ : Draws).uk) = 2 := by
    show choiceRange13 (1/2 : ℝ) = 2
    unfold choiceRange13
    rw [show (1/2 : ℝ) * 3 = 3/2 by norm_num,
      show ⌊(3/2 : ℝ)⌋₊ = 1 by rw [Nat.floor_eq_iff] <;> norm_num]
  dsimp only
  rw [hk, show List.range 2 = [0, 1] from rfl]
  simp only [List.map_cons, List.map_nil]
  rw [show ⌊(0 : ℝ) * (Order.topping_list.length : ℝ)⌋₊ = 0 by norm_num]
  decide

/-- C7: with empty history, generation bypasses the novelty weights: the
topping count `k = choiceRange13 uk` is a uniform draw from {1, 2, 3}
(each value's preimage among `u ∈ [0,1)` is an interval of length 1/3),
the order has exactly `k` toppings, each single-valued attribute is one
domain value obtained from a uniform fractional index, and the sugar
percentage is an integer in `[0, 100)`. -/
theorem C7_bootstrap_uniform (d : Draws) (huk : 0 ≤ d.uk ∧ d.uk < 1)
    (huts : ∀ i, 0 ≤ d.uts i ∧ d.uts i < 1) (hutea : 0 ≤ d.utea ∧ d.utea < 1)
    (husugar : 0 ≤ d.usugar ∧ d.usugar < 1) (huice : 0 ≤ d.uice ∧ d.uice < 1) :
    ∃ o : Order, newOrderFirst d = some o
      ∧ o.toppings.length = choiceRange13 d.uk
      ∧ 1 ≤ choiceRange13 d.uk ∧ choiceRange13 d.uk ≤ 3
      ∧ (∀ j : ℕ, 1 ≤ j → j ≤ 3 →
          {u : ℝ | 0 ≤ u ∧ u < 1 ∧ choiceRange13 u = j}
            = Set.Ico (((j : ℝ) - 1) / 3) ((j : ℝ) / 3)
          ∧ (j : ℝ) / 3 - ((j : ℝ) - 1) / 3 = 1 / 3)
      ∧ o.tea_type = Order.tea_types.getD ⌊d.utea * (Order.tea_types.length : ℝ)⌋₊ ""
      ∧ o.tea_type ∈ Order.tea_types
      ∧ o.ice_category
          = Order.ice_categories.getD ⌊d.uice * (Order.ice_categories.length : ℝ)⌋₊ ""
      ∧ o.ice_category ∈ Order.ice_categories
      ∧ o.sugar_percentage = ⌊d.usugar * 100⌋
      ∧ 0 ≤ o.sugar_percentage ∧ o.sugar_percentage < 100 := by
  refine ⟨_, newOrderFirst_eq_clean d huts hutea huice, ?_,
    (choiceRange13_bounds huk.1 huk.2).1, (choiceRange13_bounds huk.1 huk.2).2,
    fun j hj1 hj3 => ⟨choiceRange13_preimage hj1 hj3, by rw [div_sub_div_same]; norm_num⟩,
    rfl, getD_mem (floor_mul_len_lt hutea.1 hutea.2 (by decide)),
    rfl, getD_mem (floor_mul_len_lt huice.1 huice.2 (by decide)),
    rfl, ?_, ?_⟩
  · dsimp only
    rw [List.length_map, List.length_range]
  · dsimp only
    rw [Int.le_floor]
    push_cast
    exact mul_nonneg husugar.1 (by norm_num)
  · dsimp only
    rw [Int.floor_lt]
    push_cast
    nlinarith [husugar.2]

/-- Witness for C7 at concrete all-zero draws. -/
theorem C7_witness :
    ∃ o : Order, newOrderFirst ⟨0, 0, fun i => 0, 0, 0⟩ = some o
      ∧ o.toppings.length = choiceRange13 ((⟨0, 0, fun i => 0, 0, 0⟩ : Draws).uk)
      ∧ 1 ≤ choiceRange13 ((⟨0, 0, fun i => 0, 0, 0⟩ : Draws).uk)
      ∧ choiceRange13 ((⟨0, 0, fun i => 0, 0, 0⟩ : Draws).uk) ≤ 3
      ∧ (∀ j : ℕ, 1 ≤ j → j ≤ 3 →
          {u : ℝ | 0 ≤ u ∧ u < 1 ∧ choiceRange13 u = j}
            = Set.Ico (((j : ℝ) - 1) / 3) ((j : ℝ) / 3)
          ∧ (j : ℝ) / 3 - ((j : ℝ) - 1) / 3 = 1 / 3) := by
  obtain ⟨o, h1, h2, h3, h4, h5, _⟩ := C7_bootstrap_uniform ⟨0, 0, fun i => 0, 0, 0⟩
    ⟨le_rfl, by norm_num⟩ (fun i => ⟨le_rfl, by norm_num⟩) ⟨le_rfl, by norm_num⟩
    ⟨le_rfl, by norm_num⟩ ⟨le_rfl, by norm_num⟩
  exact ⟨o, h1, h2, h3, h4, h5⟩

/-- C10: in the weighted branch the number of distinct toppings of the
generated order is between 1 and 3: deduplicating the `k ∈ {1,2,3}`
with-replacement draws can reduce the count below `k` but never to zero
and never above 3. -/
theorem C10_weighted_topping_count (prev : List HistoryRecord) (today : ℤ) (d : Draws)
    (huk : 0 ≤ d.uk ∧ d.uk < 1) :
    ∃ o : Order, newOrderWeighted prev today d = some o
      ∧ 1 ≤ o.toppings.length ∧ o.toppings.length ≤ 3 := by
  refine ⟨_, newOrderWeighted_eq prev today d, ?_, ?_⟩
  · dsimp only
    rw [List.length_map]
    apply List.length_pos.mpr
    rw [Ne, List.dedup_eq_nil]
    intro h
    have hlen := congrArg List.length h
    rw [List.length_map, List.length_range, List.length_nil] at hlen
    have hk := (choiceRange13_bounds huk.1 huk.2).1
    omega
  · dsimp only
    rw [List.length_map]
    have h1 := (List.dedup_sublist ((List.range (choiceRange13 d.uk)).map fun i =>
      ((selectIdx (noveltyFactors prev today).toppings (d.uts i) : ℕ) : ℤ))).length_le
    rw [List.length_map, List.length_range] at h1
    have hk := (choiceRange13_bounds huk.1 huk.2).2
    omega

/-- Witness for C10 at a concrete history and draws. -/
theorem C10_witness :
    ∃ o : Order, newOrderWeighted [⟨[0], 1, 50, 0, 0⟩] 0 ⟨0, 0, fun i => 0, 0, 0⟩ = some o
      ∧ 1 ≤ o.toppings.length ∧ o.toppings.length ≤ 3 :=
  C10_weighted_topping_count [⟨[0], 1, 50, 0, 0⟩] 0 ⟨0, 0, fun i => 0, 0, 0⟩
    ⟨le_rfl, by norm_num⟩

/-- C9: one invocation of `new_order` maps the stored order list `prev`
to exactly `prev ++ [rec]` where `rec` is the generated selection's
`to_dict` indices plus today's date: exactly one record is appended, all
pre-existing records are unchanged (they form the same prefix), the
length grows by one, and the result is never empty (so an empty history
becomes non-empty). -/
theorem C9_append_one_record (prev : List HistoryRecord) (today : ℤ) (d : Draws)
    (huk : 0 ≤ d.uk ∧ d.uk < 1) (huts : ∀ i, 0 ≤ d.uts i ∧ d.uts i < 1)
    (hutea : 0 ≤ d.utea ∧ d.utea < 1) (husugar : 0 ≤ d.usugar ∧ d.usugar < 1)
    (huice : 0 ≤ d.uice ∧ d.uice < 1) :
    ∃ (o : Order) (rec : HistoryRecord),
      new_order prev today d = some (o, prev ++ [rec])
      ∧ rec = recordOf o today ∧ rec.date = today
      ∧ (prev ++ [rec]).length = prev.length + 1
      ∧ prev ++ [rec] ≠ [] := by
  unfold new_order
  by_cases hprev : prev = []
  · subst hprev
    rw [if_pos rfl, newOrderFirst_eq_clean d huts hutea huice]
    exact ⟨_, _, rfl, rfl, rfl, by simp, by simp⟩
  · rw [if_neg hprev, newOrderWeighted_eq prev today d]
    exact ⟨_, _, rfl, rfl, rfl, by simp, by simp⟩

/-- Witness for C9 with an empty stored history and concrete draws. -/
theorem C9_witness :
    ∃ (o : Order) (rec : HistoryRecord),
      new_order [] 0 ⟨0, 0, fun i => 0, 0, 0⟩ = some (o, [] ++ [rec])
      ∧ rec = recordOf o 0 ∧ rec.date = 0
      ∧ (([] : List HistoryRecord) ++ [rec]).length = ([] : List HistoryRecord).length + 1
      ∧ ([] : List HistoryRecord) ++ [rec] ≠ [] :=
  C9_append_one_record [] 0 ⟨0, 0, fun i => 0, 0, 0⟩ ⟨le_rfl, by norm_num⟩
    (fun i => ⟨le_rfl, by norm_num⟩) ⟨le_rfl, by norm_num⟩ ⟨le_rfl, by norm_num⟩
    ⟨le_rfl, by norm_num⟩

end KFT
